import Mathlib

/-!
Verification development for the portfolio-sourcer repository.

Shallow embedding of the pure logic of the repository:
  * `src/portfolio_sourcer/verification.py`  (class VerificationSystem)
  * `src/portfolio_sourcer.py`               (class PortfolioSourcer, the legacy monolith)
  * `src/portfolio_sourcer/discovery.py`     (class DiscoveryEngine)
  * `src/portfolio_sourcer/link_validator.py` (class LinkValidator)
  * `src/portfolio_sourcer/report_generator.py` (class ReportGenerator)

Modelling conventions:
  * Python strings are Lean `String`; character classes (`\w`, `str.lower`,
    whitespace) are modelled over ASCII, which is the alphabet the program's
    configuration and data use.
  * Python floats are modelled as exact rationals `ℚ`. The similarity values
    compared against 0.8 are ratios of small integers, for which the IEEE
    comparison agrees with the exact one.
  * Network effects (`requests.get`, page fetching, the YouTube oEmbed probe)
    are oracles passed as explicit `Option` arguments: `none` models a raised
    request exception / unfetchable page, `some x` a delivered response.
  * A Python dict record with `.get("url", "")` / `.get("title", "")` is a
    structure whose absent fields are the empty string.
-/

/-- ASCII lower-casing of a single character, as `str.lower` acts on the
ASCII range (the only range the program's data exercises); this is the
`A-Z` shift also performed by `Char.toLower`. -/
def lowCh (c : Char) : Char :=
  if 65 ≤ c.toNat ∧ c.toNat ≤ 90 then Char.ofNat (c.toNat + 32) else c

/-- `str.lower` on a whole string. -/
def strLower (s : String) : String := ⟨s.data.map lowCh⟩

/-- Python's substring test `needle in hay` (empty needle is contained
everywhere, as in Python). -/
def containsSub (hay needle : List Char) : Bool :=
  if needle.isPrefixOf hay then true
  else
    match hay with
    | [] => false
    | _ :: t => containsSub t needle

/-- Case-insensitive prefix test (both sides compared through `lowCh`),
modelling a literal regex match under `re.IGNORECASE`. -/
def ciPref : List Char → List Char → Bool
  | [], _ => true
  | _ :: _, [] => false
  | n :: ns, h :: hs => (lowCh n == lowCh h) && ciPref ns hs

/-- Python regex word character `\w` over ASCII: `[a-zA-Z0-9_]`. -/
def isWordChar (c : Char) : Bool := c.isAlphanum || c == '_'

/-- Regex word boundary `\b` between two adjacent positions (string edges
count as non-word). -/
def wordBnd (a b : Option Char) : Bool :=
  (match a with | none => false | some c => isWordChar c)
    != (match b with | none => false | some c => isWordChar c)

/-- Does the pattern `\b<needle>\b` (needle a literal, matched
case-insensitively) match at the current position?  `prev` is the character
just before the position, `hay` the rest of the subject. -/
def matchWB (needle : List Char) (prev : Option Char) (hay : List Char) : Bool :=
  wordBnd prev hay.head? &&
  ciPref needle hay &&
  wordBnd (if needle.isEmpty then prev else (hay.take needle.length).getLast?)
    (hay.drop needle.length).head?

/-- Count of the non-overlapping matches of `\b<needle>\b` (case-insensitive)
in the subject, exactly as `re.findall` scans: left to right, resuming after
the end of each match and advancing one position after an empty match.
`skip` is the number of characters still covered by the previous match. -/
def countWBGo (needle : List Char) (prev : Option Char) (skip : Nat) :
    List Char → Nat
  | [] => if skip == 0 && matchWB needle prev [] then 1 else 0
  | c :: rest =>
    if skip != 0 then countWBGo needle (some c) (skip - 1) rest
    else if matchWB needle prev (c :: rest) then
      match needle with
      | [] => 1 + countWBGo [] (some c) 0 rest
      | _ :: ns => 1 + countWBGo needle (some c) ns.length rest
    else countWBGo needle (some c) 0 rest

/-- Count of the non-overlapping case-insensitive occurrences of a literal
needle (no word boundaries), as `re.findall` with pattern
`re.escape(name.lower())` under `re.IGNORECASE`. -/
def countCIGo (needle : List Char) (skip : Nat) : List Char → Nat
  | [] => if skip == 0 && needle.isEmpty then 1 else 0
  | c :: rest =>
    if skip != 0 then countCIGo needle (skip - 1) rest
    else if ciPref needle (c :: rest) then
      match needle with
      | [] => 1 + countCIGo [] 0 rest
      | _ :: ns => 1 + countCIGo needle ns.length rest
    else countCIGo needle 0 rest

/-- A discovered candidate record. Only the `title` and `url` fields are ever
consulted by the embedded logic; a missing dict key is the empty string. -/
structure Project where
  title : String
  url : String
deriving DecidableEq, Repr

/-- The configuration slice read by `VerificationSystem.__init__`. -/
structure VConfig where
  verification_names : List String
  known_agencies : List String
  known_brands : List String
  verification_threshold : Int
  linkedin_url : String
  portfolio_url : String

/-- `VerificationSystem._count_name_mentions`: for each configured name
variant, count word-bounded case-insensitive matches of the lowered name in
the content, and sum the counts. -/
def count_name_mentions (names : List String) (content : String) : Nat :=
  names.foldl (fun acc name =>
    acc + countWBGo (strLower name).data none 0 content.data) 0

def backslashChar : Char := Char.ofNat 92

def apostropheChar : Char := Char.ofNat 39

/-- `VerificationSystem._check_agency_associations`: an agency matches when
its lowered name, with backslashes and forward slashes removed, is a
substring of the lowered content. -/
def check_agency_associations (agencies : List String) (content : String) :
    List String :=
  agencies.filter (fun a =>
    containsSub (strLower content).data
      ((strLower a).data.filter (fun c => c != backslashChar && c != '/')))

/-- `VerificationSystem._check_brand_association`: the first brand whose
normalized form (apostrophes and spaces removed from the lowered name) or
plain lowered form occurs in the lowered content. -/
def check_brand_association (brands : List String) (content : String) :
    Option String :=
  brands.find? (fun b =>
    containsSub (strLower content).data
        ((strLower b).data.filter (fun c => c != apostropheChar && c != ' '))
      || containsSub (strLower content).data (strLower b).data)

/-- `VerificationSystem._check_linkedin_mention`. -/
def check_linkedin_mention (linkedin_url : String) (p : Project)
    (content : String) : Bool :=
  containsSub (strLower p.url).data "linkedin.com".data
    || (linkedin_url != "" && containsSub (strLower content).data (strLower linkedin_url).data)

/-- The hard-coded portfolio domain list shared by both variants. -/
def portfolio_domains : List String :=
  ["jgerms20.github.io", "joshuagerman.com", "joshua-german.com"]

/-- `VerificationSystem._check_portfolio_mention` (the `content` argument is
accepted but never read by the source). -/
def check_portfolio_mention (portfolio_url : String) (url : String)
    (_content : String) : Bool :=
  if portfolio_url = "" then false
  else portfolio_domains.any (fun d => containsSub (strLower url).data d.data)

/-- Signal 1 of `VerificationSystem.verify_attribution` as a
(score, evidence) pair; skipped when the page content is absent. -/
def name_signal (names : List String) (content : Option String) :
    Int × List String :=
  match content with
  | some c =>
    let nm := count_name_mentions names c
    if nm > 0 then
      (min (nm : Int) 3, ["Name mentioned " ++ toString nm ++ " time(s) on page"])
    else (0, [])
  | none => (0, [])

/-- Signal 2 (agency associations); skipped when content is absent. -/
def agency_signal (agencies : List String) (content : Option String) :
    Int × List String :=
  match content with
  | some c =>
    let ags := check_agency_associations agencies c
    if ags ≠ [] then
      ((ags.length : Int), ["Associated with agencies: " ++ String.intercalate ", " ags])
    else (0, [])
  | none => (0, [])

/-- Signal 3 (brand association); skipped when content is absent. -/
def brand_signal (brands : List String) (content : Option String) :
    Int × List String :=
  match content with
  | some c =>
    match check_brand_association brands c with
    | some b => (1, ["Associated with known brand: " ++ b])
    | none => (0, [])
  | none => (0, [])

/-- Signal 4 (LinkedIn mention); runs on `content or ""`. -/
def linkedin_signal (linkedin_url : String) (p : Project)
    (content : Option String) : Int × List String :=
  if check_linkedin_mention linkedin_url p (content.getD "") then
    (2, ["Mentioned on LinkedIn profile"])
  else (0, [])

/-- Signal 5 (portfolio-site mention); gated on a configured portfolio URL. -/
def portfolio_signal (portfolio_url : String) (p : Project)
    (content : Option String) : Int × List String :=
  if portfolio_url ≠ "" then
    if check_portfolio_mention portfolio_url p.url (content.getD "") then
      (1, ["Mentioned on portfolio site"])
    else (0, [])
  else (0, [])

/-- `VerificationSystem.verify_attribution`.  The `content` argument is the
oracle for `_fetch_page_content(url)`: `none` models a failed fetch.
Returns `(is_verified, verification_score, evidence_sources)`. -/
def verify_attribution (cfg : VConfig) (p : Project) (content : Option String) :
    Bool × Int × List String :=
  if p.url = "" then (false, 0, [])
  else
    let s1 := name_signal cfg.verification_names content
    let s2 := agency_signal cfg.known_agencies content
    let s3 := brand_signal cfg.known_brands content
    let s4 := linkedin_signal cfg.linkedin_url p content
    let s5 := portfolio_signal cfg.portfolio_url p content
    let score := s1.1 + s2.1 + s3.1 + s4.1 + s5.1
    (decide (score ≥ cfg.verification_threshold), score,
      s1.2 ++ s2.2 ++ s3.2 ++ s4.2 ++ s5.2)

/-- The name variants hard-coded in `PortfolioSourcer.__init__`. -/
def mono_names : List String :=
  ["Joshua German", "Joshua M. German", "Joshua McKenzie German",
   "Josh German", "J. German"]

/-- The agency list hard-coded in `PortfolioSourcer.__init__`
(first entry is the Python literal "TBWA\\Chiat\\Day"). -/
def mono_agencies : List String :=
  ["TBWA" ++ ⟨[backslashChar]⟩ ++ "Chiat" ++ ⟨[backslashChar]⟩ ++ "Day",
   "TBWA Chiat Day", "Wieden+Kennedy",
   "Goodby, Silverstein & Partners", "GS&P"]

/-- The brand list hard-coded in `PortfolioSourcer._check_brand_association`. -/
def mono_brands : List String :=
  ["Levi" ++ ⟨[apostropheChar]⟩ ++ "s", "Sephora", "DoorDash", "BMW",
   "Califia", "DIRECTV", "Samuel Adams"]

/-- `PortfolioSourcer._count_name_mentions`: plain case-insensitive
substring occurrences, no word boundaries and no cap. -/
def mono_count_name_mentions (content : String) : Nat :=
  mono_names.foldl (fun acc name =>
    acc + countCIGo (strLower name).data 0 content.data) 0

/-- `PortfolioSourcer._check_agency_associations` (plain lowered substring
test, no separator stripping). -/
def mono_check_agency_associations (content : String) : List String :=
  mono_agencies.filter (fun a =>
    containsSub (strLower content).data (strLower a).data)

/-- `PortfolioSourcer._check_brand_association`. -/
def mono_check_brand_association (content : String) : Option String :=
  mono_brands.find? (fun b =>
    containsSub (strLower content).data (strLower b).data)

/-- `PortfolioSourcer._check_portfolio_mention`. -/
def mono_check_portfolio_mention (url : String) : Bool :=
  portfolio_domains.any (fun d => containsSub (strLower url).data d.data)

/-- `PortfolioSourcer.verify_attribution` (the legacy monolith variant).
Differences from the modular variant, mirrored from the source: the name
signal adds the raw uncapped count, agency/brand checks run on
`content or ""`, the LinkedIn check is a placeholder returning False, and
the threshold is read from the configuration with default 3. -/
def mono_verify_attribution (threshold : Int) (p : Project)
    (content : Option String) : Bool × Int × List String :=
  if p.url = "" then (false, 0, [])
  else
    let s1 : Int × List String :=
      match content with
      | some c =>
        let nm := mono_count_name_mentions c
        if nm > 0 then
          ((nm : Int), ["Name mentioned " ++ toString nm ++ " time(s) on page"])
        else (0, [])
      | none => (0, [])
    let ags := mono_check_agency_associations (content.getD "")
    let s2 : Int × List String :=
      if ags ≠ [] then
        ((ags.length : Int), ["Associated with agencies: " ++ String.intercalate ", " ags])
      else (0, [])
    let s4 : Int × List String :=
      match mono_check_brand_association (content.getD "") with
      | some b => (1, ["Associated with known brand: " ++ b])
      | none => (0, [])
    let s5 : Int × List String :=
      if mono_check_portfolio_mention p.url then
        (1, ["Mentioned on portfolio site"])
      else (0, [])
    let score := s1.1 + s2.1 + s4.1 + s5.1
    (decide (score ≥ threshold), score, s1.2 ++ s2.2 ++ s4.2 ++ s5.2)

/-- C1 (amended): for every configuration and every candidate record whose
`url` field is nonempty, the returned decision equals
`verification_score >= verification_threshold`, and changing only the
threshold leaves the computed score unchanged.  (For a record with an empty
`url` the function returns `False` before comparing with the threshold, so
the unrestricted claim fails; see the counterexample.) -/
theorem verify_decision_matches_threshold
    (names ags brs : List String) (t1 t2 : Int) (lu pu : String)
    (p : Project) (content : Option String) (h : p.url ≠ "") :
    (verify_attribution ⟨names, ags, brs, t1, lu, pu⟩ p content).1
      = decide ((verify_attribution ⟨names, ags, brs, t1, lu, pu⟩ p content).2.1 ≥ t1)
    ∧ (verify_attribution ⟨names, ags, brs, t1, lu, pu⟩ p content).2.1
      = (verify_attribution ⟨names, ags, brs, t2, lu, pu⟩ p content).2.1 := by
  constructor <;> simp [verify_attribution, h]

/-- C1 witness: the amended theorem applied at a concrete record,
content and pair of thresholds. -/
theorem verify_decision_matches_threshold_witness :
    (verify_attribution ⟨["Joshua German"], [], [], 1, "", ""⟩ ⟨"t", "https://x.com/a"⟩
        (some "Joshua German")).1
      = decide ((verify_attribution ⟨["Joshua German"], [], [], 1, "", ""⟩ ⟨"t", "https://x.com/a"⟩
        (some "Joshua German")).2.1 ≥ (1 : Int))
    ∧ (verify_attribution ⟨["Joshua German"], [], [], 1, "", ""⟩ ⟨"t", "https://x.com/a"⟩
        (some "Joshua German")).2.1
      = (verify_attribution ⟨["Joshua German"], [], [], 5, "", ""⟩ ⟨"t", "https://x.com/a"⟩
        (some "Joshua German")).2.1 :=
  verify_decision_matches_threshold ["Joshua German"] [] [] 1 5 "" ""
    ⟨"t", "https://x.com/a"⟩ (some "Joshua German") (by decide)

/-- C1 counterexample: with threshold 0 and an empty `url`, the code returns
`is_verified = False` although `verification_score = 0 >= 0`, so
`is_verified == (score >= threshold)` fails as universally stated. -/
theorem verify_decision_matches_threshold_cex :
    (verify_attribution ⟨[], [], [], 0, "", ""⟩ ⟨"t", ""⟩ none).1
      ≠ decide ((verify_attribution ⟨[], [], [], 0, "", ""⟩ ⟨"t", ""⟩ none).2.1 ≥ (0 : Int)) := by
  decide

/-- C2 (amended): in the modular verification engine
(`verification.py`), the name-mention signal contributes exactly
`min(count, 3)` to the verification score, where `count` is the summed
number of case-insensitive word-boundary matches of the configured name
variants, and this contribution never exceeds 3.  (The legacy monolith
variant adds the raw uncapped substring count instead; see the
counterexample.) -/
theorem name_mention_signal_capped (cfg : VConfig) (p : Project) (c : String)
    (h : p.url ≠ "") :
    (verify_attribution cfg p (some c)).2.1
      = min ((count_name_mentions cfg.verification_names c : Int)) 3
        + (agency_signal cfg.known_agencies (some c)).1
        + (brand_signal cfg.known_brands (some c)).1
        + (linkedin_signal cfg.linkedin_url p (some c)).1
        + (portfolio_signal cfg.portfolio_url p (some c)).1
    ∧ min ((count_name_mentions cfg.verification_names c : Int)) 3 ≤ 3 := by
  constructor
  · simp only [verify_attribution]
    rw [if_neg h]
    simp only [name_signal]
    by_cases hnm : count_name_mentions cfg.verification_names c > 0
    · rw [if_pos hnm]
    · have h0 : count_name_mentions cfg.verification_names c = 0 := by omega
      simp [h0]
  · exact min_le_right _ _

/-- C2 witness: the amended theorem applied at a concrete configuration,
record and page content. -/
theorem name_mention_signal_capped_witness :
    (verify_attribution ⟨["Joshua German"], [], [], 3, "", ""⟩ ⟨"t", "https://x.com/a"⟩
        (some "Joshua German and Joshua German")).2.1
      = min ((count_name_mentions ["Joshua German"] "Joshua German and Joshua German" : Int)) 3
        + (agency_signal [] (some "Joshua German and Joshua German")).1
        + (brand_signal [] (some "Joshua German and Joshua German")).1
        + (linkedin_signal "" ⟨"t", "https://x.com/a"⟩ (some "Joshua German and Joshua German")).1
        + (portfolio_signal "" ⟨"t", "https://x.com/a"⟩ (some "Joshua German and Joshua German")).1
    ∧ min ((count_name_mentions ["Joshua German"] "Joshua German and Joshua German" : Int)) 3 ≤ 3 :=
  name_mention_signal_capped ⟨["Joshua German"], [], [], 3, "", ""⟩
    ⟨"t", "https://x.com/a"⟩ "Joshua German and Joshua German" (by decide)

/-- C2 counterexample: in the monolith variant a page mentioning the name
four times contributes 4 points (the whole score here), exceeding the
claimed cap of `min(4, 3) = 3`. -/
theorem name_mention_signal_capped_cex :
    mono_count_name_mentions
        "Joshua German Joshua German Joshua German Joshua German" = 4
    ∧ (mono_verify_attribution 3 ⟨"T", "https://example.com/x"⟩
        (some "Joshua German Joshua German Joshua German Joshua German")).2.1 = 4
    ∧ ¬ ((4 : Int) ≤ 3) := by
  decide

/-- C10: a record whose `url` field is missing or empty is rejected by both
variants of `verify_attribution` with `(False, 0, [])`, for every
configuration (any threshold, including 0) and independently of the content
oracle (no signal and no fetch can influence the result). -/
theorem empty_url_short_circuit (cfg : VConfig) (threshold : Int)
    (p : Project) (content : Option String) (h : p.url = "") :
    verify_attribution cfg p content = (false, 0, [])
    ∧ mono_verify_attribution threshold p content = (false, 0, []) := by
  constructor <;> simp [verify_attribution, mono_verify_attribution, h]

/-- C10 witness: the theorem applied at a concrete empty-url record with
threshold 0 and available content. -/
theorem empty_url_short_circuit_witness :
    verify_attribution ⟨[], [], [], 0, "", ""⟩ ⟨"t", ""⟩ (some "Joshua German")
        = (false, 0, [])
    ∧ mono_verify_attribution 0 ⟨"t", ""⟩ (some "Joshua German") = (false, 0, []) :=
  empty_url_short_circuit ⟨[], [], [], 0, "", ""⟩ 0 ⟨"t", ""⟩
    (some "Joshua German") (by decide)

/-- Scheme characters accepted by `urllib.parse` after the first letter:
letters, digits, `+`, `-`, `.`. -/
def isSchemeChar (c : Char) : Bool :=
  c.isAlpha || c.isDigit || c == '+' || c == '-' || c == '.'

/-- Scanner for the scheme part: consumes scheme characters until the first
`:`; fails if a non-scheme character appears first or no `:` exists.
`acc` holds the characters read so far, reversed. -/
def schemeSplitGo (acc : List Char) : List Char → Option (List Char × List Char)
  | [] => none
  | c :: rest =>
    if c == ':' then some (acc.reverse, rest)
    else if isSchemeChar c then schemeSplitGo (c :: acc) rest
    else none

/-- The scheme split of `urllib.parse.urlsplit`: a scheme is recognised when
the first `:` is preceded by a letter followed by scheme characters; the
scheme is lower-cased.  Otherwise the input is left whole. -/
def splitScheme : List Char → List Char × List Char
  | [] => ([], [])
  | c :: rest =>
    if c.isAlpha then
      match schemeSplitGo [c] rest with
      | some (sch, r) => (sch.map lowCh, r)
      | none => ([], c :: rest)
    else ([], c :: rest)

/-- Characters terminating the network-location part. -/
def netlocDelim (c : Char) : Bool := c == '/' || c == '?' || c == '#'

/-- Does the remainder start with the `//` that introduces a netloc? -/
def startsDblSlash : List Char → Bool
  | c :: d :: _ => c == '/' && d == '/'
  | _ => false

/-- The netloc split of `urlsplit`: only after a leading `//`, up to the
next `/`, `?` or `#`. -/
def splitNetloc (cs : List Char) : List Char × List Char :=
  if startsDblSlash cs then
    ((cs.drop 2).takeWhile (fun c => !netlocDelim c),
     (cs.drop 2).dropWhile (fun c => !netlocDelim c))
  else ([], cs)

/-- The `(scheme, netloc, path)` triple of `urllib.parse.urlparse`, the only
components `_normalize_url` reads (params, query and fragment are
discarded by the `f"{scheme}://{netloc}{path}"` rebuild). -/
structure UrlParts where
  scheme : List Char
  netloc : List Char
  path : List Char

/-- The input cleaning CPython 3.11's `urlsplit` performs before parsing:
left-strip WHATWG C0-control-or-space characters (code points up to 0x20;
trailing ones are deliberately preserved by the stdlib), then remove the
unsafe bytes tab, CR and LF everywhere. -/
def sanitizeUrl (cs : List Char) : List Char :=
  (cs.dropWhile (fun c => c.toNat ≤ 32)).filter
    (fun c => !(c == '\t' || c == '\r' || c == '\n'))

/-- The scheme/netloc/path part of `urllib.parse.urlsplit`: sanitize, split
the scheme, split the netloc after `//`, drop query and fragment.  The
stdlib looks for the scheme colon before removing the fragment, but a
colon after `#` always has `#` in its candidate scheme and is rejected, so
removing the fragment first is equivalent.  `_checknetloc` (which only
rejects some non-ASCII netlocs) is a no-op on the ASCII strings modelled
here; of the bracketed-host checks, only the unbalanced-bracket
`ValueError` is modelled (see `bracketBad`). -/
def urlsplitCore (cs : List Char) : UrlParts :=
  ⟨(splitScheme ((sanitizeUrl cs).takeWhile (fun c => c != '#'))).1,
   (splitNetloc (splitScheme ((sanitizeUrl cs).takeWhile (fun c => c != '#'))).2).1,
   (splitNetloc (splitScheme ((sanitizeUrl cs).takeWhile (fun c => c != '#'))).2).2.takeWhile
     (fun c => c != '?')⟩

/-- The schemes for which `urlparse` splits `;params` off the path
(CPython 3.11's `uses_params`, with the empty scheme included). -/
def uses_params : List String :=
  ["", "ftp", "hdl", "prospero", "http", "imap", "https", "shttp", "rtsp",
   "rtsps", "rtspu", "sip", "sips", "mms", "sftp", "tel"]

/-- The path part of `_splitparams`: when the path contains a slash, split
at the first `;` at or after the last `/` (that is, inside the last
segment), returning the path unchanged when that segment has no `;`;
when the path has no slash, split at the first `;`.  The caller
(`urlparseCore`) only invokes this when the path contains a `;`, exactly
as `urlparse` does, so the no-slash branch always finds one. -/
def splitparams_path (path : List Char) : List Char :=
  if '/' ∈ path then
    if ';' ∈ (path.reverse.takeWhile (fun c => c != '/')).reverse then
      (path.reverse.dropWhile (fun c => c != '/')).reverse
        ++ (path.reverse.takeWhile (fun c => c != '/')).reverse.takeWhile
            (fun c => c != ';')
    else path
  else path.takeWhile (fun c => c != ';')

/-- `urllib.parse.urlparse`: `urlsplit`, then, for a scheme in
`uses_params` with a `;` in the path, split the params off the last path
segment (the params themselves are discarded by `_normalize_url`). -/
def urlparseCore (cs : List Char) : UrlParts :=
  if (⟨(urlsplitCore cs).scheme⟩ : String) ∈ uses_params
      ∧ ';' ∈ (urlsplitCore cs).path then
    ⟨(urlsplitCore cs).scheme, (urlsplitCore cs).netloc,
     splitparams_path (urlsplitCore cs).path⟩
  else urlsplitCore cs

/-- Python's `.rstrip('/')`. -/
def rstripSlash (cs : List Char) : List Char :=
  (cs.reverse.dropWhile (fun c => c == '/')).reverse

/-- The unbalanced-bracket condition on a netloc for which `urlsplit`
raises `ValueError("Invalid IPv6 URL")`.  CPython 3.11 additionally
validates balanced bracketed hosts (`_check_bracketed_host`, a full
IPv6/IPvFuture parser) and raises on e.g. `http://[abc]/`; that validator
is not modelled, which is why the idempotence theorem below restricts
itself to bracket-free URLs. -/
def bracketBad (nl : List Char) : Bool :=
  (nl.any (fun c => c == '[')) != (nl.any (fun c => c == ']'))

/-- `DiscoveryEngine._normalize_url`: empty input maps to the empty string;
otherwise rebuild `f"{scheme}://{netloc}{path}"` from the `urlparse`
result, strip trailing slashes and lower-case.  A parse error (unbalanced
netloc brackets) is caught and yields the lower-cased input unchanged. -/
def normalize_url (url : String) : String :=
  if url.data.isEmpty then ""
  else
    if bracketBad (urlparseCore url.data).netloc then ⟨url.data.map lowCh⟩
    else
      ⟨(rstripSlash ((urlparseCore url.data).scheme ++ ([':', '/', '/'] : List Char)
          ++ (urlparseCore url.data).netloc ++ (urlparseCore url.data).path)).map lowCh⟩

/-- The deduplication key of a record: its url is lower-cased at the top of
the loop in `deduplicate_projects` and then normalized. -/
def normKey (p : Project) : String := normalize_url (strLower p.url)

/-- The word set `set(text.lower().split())` of
`DiscoveryEngine._calculate_similarity`. -/
def word_set (t : String) : Finset String :=
  (((strLower t).split (fun c => c.isWhitespace)).filter (fun w => w != "")).toFinset

/-- `DiscoveryEngine._calculate_similarity`: Jaccard index of the word sets,
with the source's exact sequence of early returns.  Floats are modelled as
exact rationals. -/
def calc_similarity (t1 t2 : String) : ℚ :=
  if t1 = "" ∨ t2 = "" then 0
  else if word_set t1 = ∅ ∧ word_set t2 = ∅ then 1
  else if word_set t1 = ∅ ∨ word_set t2 = ∅ then 0
  else if 0 < (word_set t1 ∪ word_set t2).card then
    ((word_set t1 ∩ word_set t2).card : ℚ) / ((word_set t1 ∪ word_set t2).card : ℚ)
  else 0

/-- The inner loop of `deduplicate_projects`: is the candidate title more
than 0.8-similar to some previously accepted title? -/
def title_similar (st : List String) (t : String) : Bool :=
  st.any (fun s => decide ((4 : ℚ) / 5 < calc_similarity t s))

/-- The loop of `DiscoveryEngine.deduplicate_projects`: `su` and `st` are the
seen normalized urls and seen lowered titles (sets queried by membership
only, hence lists). -/
def dedupGo (su st : List String) : List Project → List Project
  | [] => []
  | p :: ps =>
    if normKey p ≠ "" ∧ normKey p ∉ su then
      if title_similar st (strLower p.title) then dedupGo su st ps
      else p :: dedupGo (normKey p :: su) (strLower p.title :: st) ps
    else dedupGo su st ps

/-- `DiscoveryEngine.deduplicate_projects`. -/
def deduplicate_projects (ps : List Project) : List Project := dedupGo [] [] ps

/-- C4 (amended): the dedup-engine similarity is 1.0 on every pair of equal
nonempty strings, but two empty strings yield 0.0 (the source's
`if not text1 or not text2` guard runs before the empty-word-set branch),
not 1.0 as claimed. -/
theorem similarity_self_of_nonempty (s : String) (h : s ≠ "") :
    calc_similarity s s = 1 ∧ calc_similarity "" "" = 0 := by
  constructor
  · unfold calc_similarity
    rw [if_neg (by simp [h])]
    by_cases hw : word_set s = ∅
    · rw [if_pos ⟨hw, hw⟩]
    · rw [if_neg (by tauto), if_neg (by tauto)]
      have hzero : (word_set s).card ≠ 0 :=
        Nat.pos_iff_ne_zero.mp (Finset.card_pos.mpr (Finset.nonempty_iff_ne_empty.mpr hw))
      have hpos : 0 < (word_set s ∪ word_set s).card := by
        rw [Finset.union_self]
        exact Finset.card_pos.mpr (Finset.nonempty_iff_ne_empty.mpr hw)
      rw [if_pos hpos, Finset.inter_self, Finset.union_self]
      have hq : ((word_set s).card : ℚ) ≠ 0 := by exact_mod_cast hzero
      exact div_self hq
  · decide

/-- C4 witness: the amended theorem applied at a concrete nonempty string. -/
theorem similarity_self_of_nonempty_witness :
    calc_similarity "Some Campaign" "Some Campaign" = 1 ∧ calc_similarity "" "" = 0 :=
  similarity_self_of_nonempty "Some Campaign" (by decide)

/-- C4 counterexample: `similarity(s, s)` is not 1.0 for every string: on the
empty string (both arguments empty) the dedup-engine variant returns 0.0. -/
theorem similarity_self_cex :
    calc_similarity "" "" = 0 ∧ (0 : ℚ) ≠ 1 := by
  constructor
  · rfl
  · decide

/-- Helper for C5: one pass of the deduplication loop started from any seen
state absorbs a second pass from the same state. -/
theorem dedupGo_pass_absorb (ps : List Project) :
    ∀ su st, dedupGo su st (dedupGo su st ps) = dedupGo su st ps := by
  induction ps with
  | nil => intro su st; rfl
  | cons p ps ih =>
    intro su st
    by_cases h1 : normKey p ≠ "" ∧ normKey p ∉ su
    · by_cases h2 : title_similar st (strLower p.title) = true
      · simp only [dedupGo, if_pos h1, if_pos h2]
        exact ih su st
      · simp only [dedupGo, if_pos h1, if_neg h2]
        rw [ih]
    · simp only [dedupGo, if_neg h1]
      exact ih su st

/-- Helper for C5: the deduplication loop never grows the list. -/
theorem dedupGo_length (ps : List Project) :
    ∀ su st, (dedupGo su st ps).length ≤ ps.length := by
  induction ps with
  | nil => intro su st; simp [dedupGo]
  | cons p ps ih =>
    intro su st
    simp only [dedupGo]
    split
    · split
      · exact Nat.le_succ_of_le (ih su st)
      · simpa using Nat.succ_le_succ (ih _ _)
    · exact Nat.le_succ_of_le (ih su st)

/-- C5: deduplication never enlarges the candidate list and is idempotent:
`dedupe(dedupe(x)) == dedupe(x)`. -/
theorem dedupe_size_and_idempotent (ps : List Project) :
    (deduplicate_projects ps).length ≤ ps.length
    ∧ deduplicate_projects (deduplicate_projects ps) = deduplicate_projects ps :=
  ⟨dedupGo_length ps [] [], dedupGo_pass_absorb ps [] []⟩

/-- Helper for C6: every record emitted by the loop has a normalized URL that
is new with respect to the incoming seen set, and the emitted normalized
URLs are pairwise distinct. -/
theorem dedupGo_nodup (ps : List Project) :
    ∀ su st, (((dedupGo su st ps).map normKey).Nodup)
      ∧ ∀ q ∈ dedupGo su st ps, normKey q ∉ su := by
  induction ps with
  | nil => intro su st; exact ⟨List.nodup_nil, by simp [dedupGo]⟩
  | cons p ps ih =>
    intro su st
    by_cases h1 : normKey p ≠ "" ∧ normKey p ∉ su
    · by_cases h2 : title_similar st (strLower p.title) = true
      · simpa only [dedupGo, if_pos h1, if_pos h2] using ih su st
      · simp only [dedupGo, if_pos h1, if_neg h2]
        obtain ⟨ihnodup, ihfresh⟩ := ih (normKey p :: su) (strLower p.title :: st)
        refine ⟨?_, ?_⟩
        · rw [List.map_cons, List.nodup_cons]
          refine ⟨?_, ihnodup⟩
          intro hmem
          obtain ⟨q, hq, hqeq⟩ := List.mem_map.mp hmem
          exact (ihfresh q hq) (by rw [hqeq]; exact List.mem_cons_self _ _)
        · intro q hq
          rcases List.mem_cons.mp hq with hq | hq
          · rw [hq]; exact h1.2
          · intro hsu
            exact (ihfresh q hq) (List.mem_cons_of_mem _ hsu)
    · simpa only [dedupGo, if_neg h1] using ih su st

/-- C6: within the deduplicated output the normalized URLs are pairwise
distinct (the mapped key list has no duplicates), so of any two input
records with identical normalized URLs at most one survives. -/
theorem dedup_unique_normalized_urls (ps : List Project) :
    ((deduplicate_projects ps).map normKey).Nodup :=
  (dedupGo_nodup ps [] []).1

/-- C3 (amended): a record whose normalized URL is the empty string is
always dropped by the deduplication loop — the guard
`if normalized_url and normalized_url not in seen_urls` requires a nonempty
key — so such a record never reaches the title-similarity check, contrary
to the claim that only the title axis applies to it. -/
theorem empty_normalized_url_skipped (su st : List String) (p : Project)
    (ps : List Project) (h : normKey p = "") :
    dedupGo su st (p :: ps) = dedupGo su st ps := by
  simp only [dedupGo]
  rw [if_neg (by simp [h])]

/-- C3 witness: the amended theorem applied to a concrete empty-url record. -/
theorem empty_normalized_url_skipped_witness :
    dedupGo [] [] [⟨"Some Campaign", ""⟩] = dedupGo [] [] [] :=
  empty_normalized_url_skipped [] [] ⟨"Some Campaign", ""⟩ [] (by decide)

/-- C3 counterexample: a single record with empty normalized URL and no
previously seen titles (so the title-similarity condition holds trivially)
is nevertheless rejected: the output is empty instead of containing the
record. -/
theorem empty_normalized_url_cex :
    deduplicate_projects [⟨"Some Campaign", ""⟩] = []
    ∧ normKey ⟨"Some Campaign", ""⟩ = "" := by
  constructor
  · rfl
  · decide

/-- Characters admitted in a YouTube video id: `[a-zA-Z0-9_-]`. -/
def ytIdChar (c : Char) : Bool := c.isAlphanum || c == '_' || c == '-'

/-- `re.search` for a pattern `<literal>[a-zA-Z0-9_-]+`: find the leftmost
position where the literal occurs followed by at least one id character,
returning the (greedy) captured id. -/
def findPat (lit : List Char) : List Char → Option (List Char)
  | [] => none
  | c :: rest =>
    if lit.isPrefixOf (c :: rest) then
      match ((c :: rest).drop lit.length).takeWhile ytIdChar with
      | [] => findPat lit rest
      | d :: ds => some (d :: ds)
    else findPat lit rest

def embedLit : List Char := "youtube.com/embed/".data

def shortLit : List Char := "youtu.be/".data

def watchLit : List Char := "youtube.com/watch?v=".data

/-- The format check of `LinkValidator._validate_youtube_url`: one of the
three recognised pattern shapes matches somewhere in the URL. -/
def youtube_format_valid (url : String) : Bool :=
  (findPat embedLit url.data).isSome || (findPat shortLit url.data).isSome
    || (findPat watchLit url.data).isSome

/-- `LinkValidator._extract_youtube_id`: first pattern, in the source's
order, that matches. -/
def extract_youtube_id (url : String) : Option (List Char) :=
  match findPat embedLit url.data with
  | some i => some i
  | none =>
    match findPat shortLit url.data with
    | some i => some i
    | none => findPat watchLit url.data

/-- `LinkValidator._validate_youtube_url`.  `oembed_status` is the oracle
for the oEmbed existence probe: `some code` a delivered HTTP status,
`none` a raised request exception (network error), which the source
catches and converts into acceptance. -/
def validate_youtube_url (url : String) (oembed_status : Option Int) : Bool :=
  if youtube_format_valid url then
    match extract_youtube_id url with
    | none => false
    | some _ =>
      match oembed_status with
      | some code => code == 200
      | none => true
  else false

/-- C8: a video-embed URL matching one of the recognised YouTube path shapes
is accepted when the oEmbed existence check fails with a network error —
the check falls back to format validity. -/
theorem youtube_network_error_fallback (url : String)
    (h : youtube_format_valid url = true) :
    validate_youtube_url url none = true := by
  unfold validate_youtube_url extract_youtube_id
  rw [if_pos h]
  unfold youtube_format_valid at h
  rcases h1 : findPat embedLit url.data with _ | i
  · rcases h2 : findPat shortLit url.data with _ | i
    · rcases h3 : findPat watchLit url.data with _ | i
      · rw [h1, h2, h3] at h; simp at h
      · rfl
    · rfl
  · rfl

/-- C8 witness: the theorem applied at a concrete short-link URL whose
existence probe errs out. -/
theorem youtube_network_error_fallback_witness :
    youtube_format_valid "https://youtu.be/dQw4w9WgXcQ" = true
    ∧ validate_youtube_url "https://youtu.be/dQw4w9WgXcQ" none = true :=
  ⟨by decide, youtube_network_error_fallback "https://youtu.be/dQw4w9WgXcQ" (by decide)⟩

/-- A broken-element record of the link validator; the report generator only
ever counts these. -/
structure LinkIssue where
  url : String
  context : String
deriving DecidableEq, Repr

/-- The `validation_results` dictionary consumed by the report generator
(`.get(key, [])` on an absent key is the empty list). -/
structure ValidationResults where
  broken_links : List LinkIssue
  broken_images : List LinkIssue
  broken_videos : List LinkIssue

/-- A verified project as the report generator reads it: only `title` and
`verification_score` are consulted. -/
structure ScoredProject where
  title : String
  score : Int
deriving DecidableEq, Repr

def singleQuote : String := ⟨[apostropheChar]⟩

/-- The full-health recommendation emitted when no broken category exists. -/
def healthy_rec : String :=
  "All links, images, and videos are valid. Portfolio is healthy!"

/-- `ReportGenerator._generate_recommendations`.  `new_projects` models the
Python argument with `None` collapsed to the empty list (both are falsy and
produce identical behaviour); `verified` is accepted and ignored exactly as
in the source. -/
def generate_recommendations (_verified : List ScoredProject)
    (v : ValidationResults) (new_projects : List ScoredProject) : List String :=
  (if v.broken_links ≠ [] then
      ["Fix " ++ toString v.broken_links.length
        ++ " broken link(s). Check URLs for updates or replacements."]
    else [])
  ++ (if v.broken_images ≠ [] then
      ["Replace " ++ toString v.broken_images.length
        ++ " broken image(s). Verify image URLs or upload new images."]
    else [])
  ++ (if v.broken_videos ≠ [] then
      ["Fix " ++ toString v.broken_videos.length
        ++ " broken video embed(s). Verify YouTube/Vimeo URLs."]
    else [])
  ++ (if new_projects ≠ [] then
      ("Consider adding " ++ toString new_projects.length
        ++ " newly discovered verified project(s) to portfolio.")
      :: (new_projects.take 5).map (fun pr =>
        "  - " ++ singleQuote ++ pr.title ++ singleQuote
          ++ " (verification score: " ++ toString pr.score ++ ")")
    else [])
  ++ (if v.broken_links = [] ∧ v.broken_images = [] ∧ v.broken_videos = [] then
      [healthy_rec]
    else [])

/-- C9 (amended): with all three broken categories empty and no new
projects, the recommendation list is exactly the single full-health
recommendation.  (When new projects are present the full-health
recommendation is preceded by new-project recommendations, so the list is
not a singleton; see the counterexample.) -/
theorem recommendations_all_healthy (verified : List ScoredProject)
    (v : ValidationResults) (h1 : v.broken_links = [])
    (h2 : v.broken_images = []) (h3 : v.broken_videos = []) :
    generate_recommendations verified v [] = [healthy_rec] := by
  simp [generate_recommendations, h1, h2, h3]

/-- C9 witness: the amended theorem applied at concrete empty results. -/
theorem recommendations_all_healthy_witness :
    generate_recommendations [⟨"Kept Project", 5⟩] ⟨[], [], []⟩ [] = [healthy_rec] :=
  recommendations_all_healthy [⟨"Kept Project", 5⟩] ⟨[], [], []⟩ rfl rfl rfl

/-- C9 counterexample: with all broken categories empty but one newly
discovered project, the recommendation list has three entries, not exactly
one. -/
theorem recommendations_all_healthy_cex :
    (generate_recommendations [] ⟨[], [], []⟩ [⟨"New Campaign", 4⟩]).length = 3
    ∧ (3 : Nat) ≠ 1 := by
  constructor
  · rfl
  · decide

theorem char_toNat_inj {c d : Char} (h : c.toNat = d.toNat) : c = d := by
  rw [← Char.ofNat_toNat c, ← Char.ofNat_toNat d, h]

theorem lowCh_toNat (c : Char) :
    (lowCh c).toNat = if 65 ≤ c.toNat ∧ c.toNat ≤ 90 then c.toNat + 32 else c.toNat := by
  by_cases h : 65 ≤ c.toNat ∧ c.toNat ≤ 90
  · rw [lowCh, if_pos h, if_pos h]
    have hv : (c.toNat + 32).isValidChar := Or.inl (by omega)
    rw [Char.ofNat, dif_pos hv]
    rfl
  · rw [lowCh, if_neg h, if_neg h]

theorem lowCh_eq_self (c : Char) (h : ¬ (65 ≤ c.toNat ∧ c.toNat ≤ 90)) : lowCh c = c := by
  rw [lowCh, if_neg h]

theorem lowCh_idem (c : Char) : lowCh (lowCh c) = lowCh c := by
  by_cases h : 65 ≤ c.toNat ∧ c.toNat ≤ 90
  · apply lowCh_eq_self
    rw [lowCh_toNat, if_pos h]
    omega
  · rw [lowCh_eq_self c h]
    exact lowCh_eq_self c h

/-- Lower-casing is transparent for comparisons against any character that is
not a Latin letter (upper or lower case). -/
theorem lowCh_beq_punct (c d : Char)
    (hd : ¬ (65 ≤ d.toNat ∧ d.toNat ≤ 90)) (hd2 : ¬ (97 ≤ d.toNat ∧ d.toNat ≤ 122)) :
    (lowCh c == d) = (c == d) := by
  by_cases h : 65 ≤ c.toNat ∧ c.toNat ≤ 90
  · have h1 : (lowCh c).toNat = c.toNat + 32 := by rw [lowCh_toNat, if_pos h]
    have e1 : (lowCh c == d) = false := by
      rw [beq_eq_false_iff_ne]
      intro he
      rw [he] at h1
      omega
    have e2 : (c == d) = false := by
      rw [beq_eq_false_iff_ne]
      intro he
      rw [he] at h
      exact hd h
    rw [e1, e2]
  · rw [lowCh_eq_self c h]

theorem char_isUpper_iff (c : Char) : c.isUpper = true ↔ (65 ≤ c.toNat ∧ c.toNat ≤ 90) := by
  simp only [Char.isUpper, Bool.and_eq_true, decide_eq_true_eq]
  rw [GE.ge, UInt32.le_def, UInt32.le_def, BitVec.le_def, BitVec.le_def]
  exact Iff.rfl

theorem char_isLower_iff (c : Char) : c.isLower = true ↔ (97 ≤ c.toNat ∧ c.toNat ≤ 122) := by
  simp only [Char.isLower, Bool.and_eq_true, decide_eq_true_eq]
  rw [GE.ge, UInt32.le_def, UInt32.le_def, BitVec.le_def, BitVec.le_def]
  exact Iff.rfl

theorem lowCh_isAlpha (c : Char) : (lowCh c).isAlpha = c.isAlpha := by
  by_cases h : 65 ≤ c.toNat ∧ c.toNat ≤ 90
  · have h1 : (lowCh c).toNat = c.toNat + 32 := by rw [lowCh_toNat, if_pos h]
    have hl : (lowCh c).isLower = true := (char_isLower_iff _).mpr (by omega)
    have hu : c.isUpper = true := (char_isUpper_iff _).mpr h
    simp [Char.isAlpha, hl, hu]
  · rw [lowCh_eq_self c h]

theorem lowCh_isSchemeChar (c : Char) : isSchemeChar (lowCh c) = isSchemeChar c := by
  by_cases h : 65 ≤ c.toNat ∧ c.toNat ≤ 90
  · have h1 : (lowCh c).toNat = c.toNat + 32 := by rw [lowCh_toNat, if_pos h]
    have hl : (lowCh c).isAlpha = true := by
      simp [Char.isAlpha, (char_isLower_iff (lowCh c)).mpr (by omega)]
    have hu : c.isAlpha = true := by
      simp [Char.isAlpha, (char_isUpper_iff c).mpr h]
    simp [isSchemeChar, hl, hu]
  · rw [lowCh_eq_self c h]

theorem lowCh_netlocDelim (c : Char) : netlocDelim (lowCh c) = netlocDelim c := by
  unfold netlocDelim
  rw [lowCh_beq_punct c '/' (by decide) (by decide),
      lowCh_beq_punct c '?' (by decide) (by decide),
      lowCh_beq_punct c '#' (by decide) (by decide)]

theorem lowCh_beq_hash (c : Char) : (lowCh c == '#') = (c == '#') :=
  lowCh_beq_punct c '#' (by decide) (by decide)

theorem lowCh_beq_quest (c : Char) : (lowCh c == '?') = (c == '?') :=
  lowCh_beq_punct c '?' (by decide) (by decide)

theorem lowCh_beq_colon (c : Char) : (lowCh c == ':') = (c == ':') :=
  lowCh_beq_punct c ':' (by decide) (by decide)

theorem lowCh_beq_slash (c : Char) : (lowCh c == '/') = (c == '/') :=
  lowCh_beq_punct c '/' (by decide) (by decide)

theorem map_lowCh_idem (l : List Char) : (l.map lowCh).map lowCh = l.map lowCh := by
  rw [List.map_map]
  exact List.map_congr_left (fun c _ => lowCh_idem c)


/-- Soundness of the scheme scanner: a successful scan decomposes the input
as scheme characters followed by a colon. -/
theorem schemeSplitGo_sound (l : List Char) :
    ∀ acc out rest, schemeSplitGo acc l = some (out, rest) →
      ∃ pre, l = pre ++ ':' :: rest ∧ out = acc.reverse ++ pre
        ∧ ∀ c ∈ pre, isSchemeChar c = true ∧ c ≠ ':' := by
  induction l with
  | nil => intro acc out rest h; simp [schemeSplitGo] at h
  | cons c t ih =>
    intro acc out rest h
    unfold schemeSplitGo at h
    by_cases hc : (c == ':') = true
    · rw [if_pos hc] at h
      have hc2 : c = ':' := eq_of_beq hc
      obtain ⟨h1, h2⟩ : acc.reverse = out ∧ t = rest := by simpa using h
      refine ⟨[], by simp [hc2, h2], by simp [h1], by simp⟩
    · rw [if_neg hc] at h
      by_cases hs : isSchemeChar c = true
      · rw [if_pos hs] at h
        obtain ⟨pre, hp1, hp2, hp3⟩ := ih (c :: acc) out rest h
        refine ⟨c :: pre, by simp [hp1], by simp [hp2], ?_⟩
        intro x hx
        rcases List.mem_cons.mp hx with rfl | hx
        · refine ⟨hs, ?_⟩
          intro he
          rw [he] at hc
          simp at hc
        · exact hp3 x hx
      · rw [if_neg hs] at h
        simp at h

/-- Completeness of the scheme scanner on a well-formed scheme prefix. -/
theorem schemeSplitGo_complete (pre : List Char) :
    ∀ acc tail, (∀ c ∈ pre, isSchemeChar c = true ∧ c ≠ ':') →
      schemeSplitGo acc (pre ++ ':' :: tail) = some (acc.reverse ++ pre, tail) := by
  induction pre with
  | nil => intro acc tail _; simp [schemeSplitGo]
  | cons c pre ih =>
    intro acc tail hall
    have hc := hall c (List.mem_cons_self _ _)
    have hbeq : (c == ':') = false := beq_eq_false_iff_ne.mpr hc.2
    simp only [List.cons_append]
    unfold schemeSplitGo
    rw [hbeq]
    simp only [Bool.false_eq_true, if_false, hc.1, if_true]
    rw [ih (c :: acc) tail (fun x hx => hall x (List.mem_cons_of_mem _ hx))]
    simp

/-- The scheme scanner commutes with lower-casing of the input. -/
theorem schemeSplitGo_map (l : List Char) :
    ∀ acc, schemeSplitGo (acc.map lowCh) (l.map lowCh)
      = (schemeSplitGo acc l).map (fun pr => (pr.1.map lowCh, pr.2.map lowCh)) := by
  induction l with
  | nil => intro acc; rfl
  | cons c t ih =>
    intro acc
    simp only [List.map_cons]
    unfold schemeSplitGo
    rw [lowCh_beq_colon, lowCh_isSchemeChar]
    by_cases hc : (c == ':') = true
    · simp [hc, List.map_reverse]
    · rw [if_neg hc, if_neg hc]
      by_cases hs : isSchemeChar c = true
      · rw [if_pos hs, if_pos hs]
        have := ih (c :: acc)
        simpa using this
      · simp [hs]

/-- Soundness of `splitScheme` when a scheme was recognised. -/
theorem splitScheme_sound (cs sch rest : List Char)
    (h : splitScheme cs = (sch, rest)) (hne : sch ≠ []) :
    ∃ raw, cs = raw ++ ':' :: rest ∧ sch = raw.map lowCh
      ∧ (∃ a t, raw = a :: t ∧ a.isAlpha = true)
      ∧ ∀ c ∈ raw, isSchemeChar c = true ∧ c ≠ ':' := by
  cases cs with
  | nil =>
    exact absurd (congrArg Prod.fst h).symm hne
  | cons c t =>
    rw [splitScheme] at h
    by_cases ha : c.isAlpha = true
    · rw [if_pos ha] at h
      cases hgo : schemeSplitGo [c] t with
      | none =>
        rw [hgo] at h
        exact absurd (congrArg Prod.fst h).symm hne
      | some pr =>
        rw [hgo] at h
        obtain ⟨pre, hp1, hp2, hp3⟩ := schemeSplitGo_sound t [c] pr.1 pr.2 (by rw [hgo])
        have hsch : sch = (c :: pre).map lowCh := by
          have := (congrArg Prod.fst h).symm
          simp only at this
          rw [this, hp2]
          simp
        have hrest : rest = pr.2 := (congrArg Prod.snd h).symm
        refine ⟨c :: pre, ?_, hsch, ⟨c, pre, rfl, ha⟩, ?_⟩
        · rw [hrest, hp1]
          simp
        · intro x hx
          rcases List.mem_cons.mp hx with rfl | hx
          · refine ⟨by simp [isSchemeChar, ha], ?_⟩
            intro he
            rw [he] at ha
            exact absurd ha (by decide)
          · exact hp3 x hx
    · rw [if_neg ha] at h
      exact absurd (congrArg Prod.fst h).symm hne

/-- Completeness of `splitScheme` on a well-formed scheme prefix. -/
theorem splitScheme_complete (raw tail : List Char)
    (hhead : ∃ a t, raw = a :: t ∧ a.isAlpha = true)
    (hall : ∀ c ∈ raw, isSchemeChar c = true ∧ c ≠ ':') :
    splitScheme (raw ++ ':' :: tail) = (raw.map lowCh, tail) := by
  obtain ⟨a, t, rfl, ha⟩ := hhead
  simp only [List.cons_append]
  rw [splitScheme, if_pos ha]
  rw [schemeSplitGo_complete t [a] tail (fun x hx => hall x (List.mem_cons_of_mem _ hx))]
  simp

/-- `splitScheme` commutes with lower-casing of the input. -/
theorem splitScheme_map (cs : List Char) :
    splitScheme (cs.map lowCh)
      = ((splitScheme cs).1, (splitScheme cs).2.map lowCh) := by
  cases cs with
  | nil => rfl
  | cons c t =>
    simp only [List.map_cons]
    rw [splitScheme, splitScheme, lowCh_isAlpha]
    by_cases ha : c.isAlpha = true
    · rw [if_pos ha, if_pos ha]
      have hmap := schemeSplitGo_map t [c]
      simp only [List.map_cons, List.map_nil] at hmap
      rw [hmap]
      cases hgo : schemeSplitGo [c] t with
      | none => simp
      | some pr =>
        obtain ⟨a, b⟩ := pr
        show (List.map lowCh (List.map lowCh a), List.map lowCh b) = _
        rw [map_lowCh_idem]
    · rw [if_neg ha, if_neg ha]
      simp

/-- `takeWhile` with a predicate transparent to lower-casing commutes with
lower-casing. -/
theorem takeWhile_map_low (p : Char → Bool) (hp : ∀ c, p (lowCh c) = p c)
    (l : List Char) :
    (l.map lowCh).takeWhile p = (l.takeWhile p).map lowCh := by
  have hfun : p ∘ lowCh = p := funext hp
  rw [List.takeWhile_map, hfun]

/-- `dropWhile` with a predicate transparent to lower-casing commutes with
lower-casing. -/
theorem dropWhile_map_low (p : Char → Bool) (hp : ∀ c, p (lowCh c) = p c)
    (l : List Char) :
    (l.map lowCh).dropWhile p = (l.dropWhile p).map lowCh := by
  have hfun : p ∘ lowCh = p := funext hp
  rw [List.dropWhile_map, hfun]

theorem startsDblSlash_map (l : List Char) :
    startsDblSlash (l.map lowCh) = startsDblSlash l := by
  rcases l with _ | ⟨c, _ | ⟨d, t⟩⟩
  · rfl
  · rfl
  · show ((lowCh c == '/') && (lowCh d == '/')) = ((c == '/') && (d == '/'))
    rw [lowCh_beq_slash, lowCh_beq_slash]

theorem notDelim_lowCh (c : Char) : (!netlocDelim (lowCh c)) = !netlocDelim c := by
  rw [lowCh_netlocDelim]

theorem bne_hash_lowCh (c : Char) : (lowCh c != '#') = (c != '#') := by
  show (!(lowCh c == '#')) = !(c == '#')
  rw [lowCh_beq_hash]

theorem bne_quest_lowCh (c : Char) : (lowCh c != '?') = (c != '?') := by
  show (!(lowCh c == '?')) = !(c == '?')
  rw [lowCh_beq_quest]

/-- `splitNetloc` commutes with lower-casing of the input. -/
theorem splitNetloc_map (l : List Char) :
    splitNetloc (l.map lowCh)
      = ((splitNetloc l).1.map lowCh, (splitNetloc l).2.map lowCh) := by
  unfold splitNetloc
  rw [startsDblSlash_map]
  by_cases hs : startsDblSlash l = true
  · rw [if_pos hs, if_pos hs]
    rw [← List.map_drop]
    rw [takeWhile_map_low _ notDelim_lowCh, dropWhile_map_low _ notDelim_lowCh]
  · rw [if_neg hs, if_neg hs]
    simp

theorem rstripSlash_eq_rdropWhile (l : List Char) :
    rstripSlash l = l.rdropWhile (fun c => c == '/') := rfl

/-- Stripping trailing slashes from a concatenation strips within the right
part unless the right part vanishes. -/
theorem rstripSlash_append (xs ys : List Char) :
    rstripSlash (xs ++ ys)
      = if rstripSlash ys = [] then rstripSlash xs else xs ++ rstripSlash ys := by
  unfold rstripSlash
  rw [List.reverse_append, List.dropWhile_append]
  by_cases h : (List.dropWhile (fun c => c == '/') ys.reverse).isEmpty = true
  · have h2 : List.dropWhile (fun c => c == '/') ys.reverse = [] := List.isEmpty_iff.mp h
    rw [if_pos h, if_pos (by rw [h2]; rfl)]
  · have h2 : List.dropWhile (fun c => c == '/') ys.reverse ≠ [] := by
      intro he
      rw [he] at h
      simp at h
    rw [if_neg h, if_neg (by simpa using h2)]
    rw [List.reverse_append, List.reverse_reverse]

/-- A list whose last element is not a slash is unchanged by `rstripSlash`. -/
theorem rstripSlash_eq_self (l : List Char)
    (h : ∀ hl : l ≠ [], ¬ ((l.getLast hl == '/') = true)) : rstripSlash l = l := by
  rw [rstripSlash_eq_rdropWhile]
  exact List.rdropWhile_eq_self_iff.mpr h

/-- After `rstripSlash` the last element, if any, is not a slash. -/
theorem rstripSlash_last_ne (l : List Char) (d : Char)
    (h : (rstripSlash l).getLast? = some d) : (d == '/') = false := by
  rw [rstripSlash_eq_rdropWhile] at h
  have hne : l.rdropWhile (fun c => c == '/') ≠ [] := by
    intro he
    rw [he] at h
    simp at h
  have h5 : (l.rdropWhile (fun c => c == '/')).getLast hne = d := by
    have h6 := List.getLast?_eq_getLast (l.rdropWhile (fun c => c == '/')) hne
    rw [h6] at h
    exact Option.some.inj h
  have h3 := List.rdropWhile_last_not (fun c => c == '/') l hne
  rw [h5] at h3
  exact Bool.eq_false_iff.mpr h3

/-- `rstripSlash` only keeps elements of the input. -/
theorem rstripSlash_subset (l : List Char) : rstripSlash l ⊆ l := by
  rw [rstripSlash_eq_rdropWhile]
  exact (List.rdropWhile_prefix _ _).subset

/-- `rstripSlash` is idempotent. -/
theorem rstripSlash_idem (l : List Char) :
    rstripSlash (rstripSlash l) = rstripSlash l := by
  rw [rstripSlash_eq_rdropWhile, rstripSlash_eq_rdropWhile]
  exact List.rdropWhile_idempotent _ _

theorem lowCh_ne_punct (c d : Char)
    (hd : ¬ (65 ≤ d.toNat ∧ d.toNat ≤ 90)) (hd2 : ¬ (97 ≤ d.toNat ∧ d.toNat ≤ 122))
    (h : c ≠ d) : lowCh c ≠ d := by
  intro he
  apply h
  have hb : (c == d) = true := by
    rw [← lowCh_beq_punct c d hd hd2, he]
    simp
  exact eq_of_beq hb

theorem rstripSlash_concat_ne (l : List Char) (d : Char) (hd : ¬ ((d == '/') = true)) :
    rstripSlash (l ++ [d]) = l ++ [d] := by
  unfold rstripSlash
  rw [List.reverse_append]
  show (List.dropWhile (fun c => c == '/') (d :: l.reverse)).reverse = l ++ [d]
  rw [List.dropWhile_cons, if_neg hd]
  simp

theorem strip_assemble (sch z : List Char) :
    rstripSlash (sch ++ [':'] ++ z) = sch ++ [':'] ++ rstripSlash z := by
  rw [rstripSlash_append (sch ++ [':']) z]
  by_cases hz : rstripSlash z = []
  · rw [if_pos hz, hz, List.append_nil]
    exact rstripSlash_concat_ne sch ':' (by decide)
  · rw [if_neg hz]

theorem rstrip_self_of_last (l : List Char) (d : Char)
    (h1 : l.getLast? = some d) (h2 : (d == '/') = false) : rstripSlash l = l := by
  apply rstripSlash_eq_self
  intro hl
  have h3 := List.getLast?_eq_getLast l hl
  rw [h1] at h3
  have hd : l.getLast hl = d := (Option.some.inj h3).symm
  rw [hd, h2]
  simp

theorem getLast?_map_lowCh (l : List Char) :
    (l.map lowCh).getLast? = Option.map lowCh l.getLast? := by
  rw [List.getLast?_eq_head?_reverse, List.getLast?_eq_head?_reverse]
  rw [← List.map_reverse, List.head?_map]

theorem splitNetloc_dblslash (u : List Char) :
    splitNetloc ('/' :: '/' :: u)
      = (u.takeWhile (fun c => !netlocDelim c), u.dropWhile (fun c => !netlocDelim c)) := by
  unfold splitNetloc
  rw [if_pos (by rfl)]
  rfl

theorem bracketBad_map (nl : List Char) :
    bracketBad (nl.map lowCh) = bracketBad nl := by
  unfold bracketBad
  rw [List.any_map, List.any_map]
  have h1 : ((fun c => c == '[') ∘ lowCh) = fun c : Char => c == '[' := by
    funext c
    exact lowCh_beq_punct c '[' (by decide) (by decide)
  have h2 : ((fun c => c == ']') ∘ lowCh) = fun c : Char => c == ']' := by
    funext c
    exact lowCh_beq_punct c ']' (by decide) (by decide)
  rw [h1, h2]

theorem mem_takeWhile_pred (p : Char → Bool) (l : List Char) (c : Char)
    (hc : c ∈ l.takeWhile p) : p c = true := List.mem_takeWhile_imp hc

/-- Elements kept in the netloc satisfy no-delimiter; the remainder consists
of input elements. -/
theorem splitNetloc_facts (l : List Char) :
    (∀ c ∈ (splitNetloc l).1, (!netlocDelim c) = true)
    ∧ (∀ c ∈ (splitNetloc l).2, c ∈ l) := by
  unfold splitNetloc
  by_cases hs : startsDblSlash l = true
  · rw [if_pos hs]
    refine ⟨fun c hc => ?_, fun c hc => ?_⟩
    · have hc2 : c ∈ List.takeWhile (fun c => !netlocDelim c) (l.drop 2) := hc
      exact mem_takeWhile_pred (fun c => !netlocDelim c) (l.drop 2) c hc2
    · have hc2 : c ∈ List.dropWhile (fun c => !netlocDelim c) (l.drop 2) := hc
      exact List.drop_subset _ _ ((List.dropWhile_sublist _).subset hc2)
  · rw [if_neg hs]
    exact ⟨by simp, fun c hc => hc⟩

/-- A letter has code point above the C0-control-or-space range. -/
theorem alpha_gt32 (a : Char) (ha : a.isAlpha = true) : ¬ (a.toNat ≤ 32) := by
  have h : a.isUpper = true ∨ a.isLower = true := by
    simpa [Char.isAlpha, Bool.or_eq_true] using ha
  rcases h with h | h
  · have := (char_isUpper_iff a).mp h
    omega
  · have := (char_isLower_iff a).mp h
    omega

/-- A character distinct from tab, CR and LF passes the unsafe-byte
filter. -/
theorem clean_of_ne (c : Char) (h1 : c ≠ '\t') (h2 : c ≠ '\r') (h3 : c ≠ '\n') :
    (!(c == '\t' || c == '\r' || c == '\n')) = true := by
  rw [beq_eq_false_iff_ne.mpr h1, beq_eq_false_iff_ne.mpr h2,
    beq_eq_false_iff_ne.mpr h3]
  rfl

/-- Scheme characters are never tab, CR or LF. -/
theorem schemeChar_clean (c : Char) (h : isSchemeChar c = true) :
    (!(c == '\t' || c == '\r' || c == '\n')) = true := by
  apply clean_of_ne <;> intro he <;> rw [he] at h <;> exact absurd h (by decide)

/-- `sanitizeUrl` is the identity on a string with a non-C0-control head
and no tab, CR or LF. -/
theorem sanitizeUrl_eq_self (cs : List Char)
    (h1 : ∀ a, cs.head? = some a → ¬ (a.toNat ≤ 32))
    (h2 : ∀ c ∈ cs, (!(c == '\t' || c == '\r' || c == '\n')) = true) :
    sanitizeUrl cs = cs := by
  have hdrop : cs.dropWhile (fun c => c.toNat ≤ 32) = cs := by
    cases cs with
    | nil => rfl
    | cons a t =>
      rw [List.dropWhile_cons,
        if_neg (by simp only [decide_eq_true_eq]; exact h1 a rfl)]
  unfold sanitizeUrl
  rw [hdrop]
  exact List.filter_eq_self.mpr h2

theorem sanitizeUrl_subset (cs : List Char) (c : Char) (hc : c ∈ sanitizeUrl cs) :
    c ∈ cs := by
  unfold sanitizeUrl at hc
  exact (List.dropWhile_sublist _).subset (List.mem_of_mem_filter hc)

theorem sanitizeUrl_clean (cs : List Char) (c : Char) (hc : c ∈ sanitizeUrl cs) :
    (!(c == '\t' || c == '\r' || c == '\n')) = true := by
  unfold sanitizeUrl at hc
  have h2 := List.of_mem_filter hc
  exact h2

/-- Elements of the netloc come from the split input. -/
theorem splitNetloc_fst_subset (l : List Char) (c : Char)
    (hc : c ∈ (splitNetloc l).1) : c ∈ l := by
  unfold splitNetloc at hc
  by_cases hs : startsDblSlash l = true
  · rw [if_pos hs] at hc
    have hc2 : c ∈ List.takeWhile (fun c => !netlocDelim c) (l.drop 2) := hc
    exact List.drop_subset _ _ ((List.takeWhile_sublist _).subset hc2)
  · rw [if_neg hs] at hc
    have hc2 : c ∈ ([] : List Char) := hc
    simp at hc2

/-- The params split never changes the scheme. -/
theorem urlparseCore_scheme (cs : List Char) :
    (urlparseCore cs).scheme = (urlsplitCore cs).scheme := by
  unfold urlparseCore
  split
  · rfl
  · rfl

/-- Without a `;` in the path, `urlparse` and `urlsplit` agree. -/
theorem urlparseCore_no_semi (cs : List Char) (h : ';' ∉ (urlsplitCore cs).path) :
    urlparseCore cs = urlsplitCore cs := by
  unfold urlparseCore
  rw [if_neg (fun hcon => h hcon.2)]

/-- A well-formed scheme followed by a bare colon is a fixed point of
`normalize_url`. -/
theorem normalize_fix_colon (sch : List Char)
    (hhead : ∃ a t, sch = a :: t ∧ a.isAlpha = true)
    (hfacts : ∀ c ∈ sch, isSchemeChar c = true ∧ c ≠ ':')
    (hlow : sch.map lowCh = sch) :
    normalize_url ⟨sch ++ [':']⟩ = ⟨sch ++ [':']⟩ := by
  have hne : sch ++ [':'] ≠ [] := by simp
  have hhash : ∀ c ∈ sch ++ [':'], (c != '#') = true := by
    intro c hc
    rcases List.mem_append.mp hc with hc | hc
    · have h1 := (hfacts c hc).1
      simp only [bne_iff_ne]
      intro he
      rw [he] at h1
      exact absurd h1 (by decide)
    · have : c = ':' := by simpa using hc
      rw [this]
      decide
  have htake : (sch ++ [':']).takeWhile (fun c => c != '#') = sch ++ [':'] :=
    List.takeWhile_eq_self_iff.mpr hhash
  have hsplit : splitScheme (sch ++ [':']) = (sch, []) := by
    have h2 := splitScheme_complete sch [] hhead hfacts
    rw [hlow] at h2
    exact h2
  have hsan : sanitizeUrl (sch ++ [':']) = sch ++ [':'] := by
    apply sanitizeUrl_eq_self
    · intro a hh
      obtain ⟨a0, t, hst, ha0⟩ := hhead
      rw [hst] at hh
      have ha : a = a0 := by
        simp only [List.cons_append, List.head?_cons, Option.some.injEq] at hh
        exact hh.symm
      rw [ha]
      exact alpha_gt32 a0 ha0
    · intro c hc
      rcases List.mem_append.mp hc with hc | hc
      · exact schemeChar_clean c (hfacts c hc).1
      · have hcc : c = ':' := by simpa using hc
        rw [hcc]
        decide
  have hcore : urlsplitCore (sch ++ [':']) = ⟨sch, [], []⟩ := by
    unfold urlsplitCore
    rw [hsan, htake, hsplit]
    rfl
  have hsemi0 : ';' ∉ (urlsplitCore (sch ++ [':'])).path := by
    rw [hcore]
    simp
  have hcoreP : urlparseCore (sch ++ [':']) = ⟨sch, [], []⟩ := by
    rw [urlparseCore_no_semi (sch ++ [':']) hsemi0, hcore]
  unfold normalize_url
  rw [if_neg (by simp [List.isEmpty_iff, hne])]
  rw [hcoreP]
  have hbb : ¬ bracketBad (UrlParts.mk sch [] []).netloc = true := by
    show ¬ bracketBad [] = true
    decide
  rw [if_neg hbb]
  show (⟨(rstripSlash (sch ++ [':', '/', '/'] ++ [] ++ [])).map lowCh⟩ : String) = _
  congr 1
  rw [List.append_nil, List.append_nil]
  have hassoc : sch ++ ([':', '/', '/'] : List Char) = sch ++ [':'] ++ ['/', '/'] := by
    simp
  rw [hassoc, strip_assemble]
  rw [show rstripSlash ['/', '/'] = [] from by decide]
  rw [List.append_nil, List.map_append, hlow]
  rfl

/-- A well-formed scheme, colon-slash-slash, and a body with no `#`/`?` and
no trailing slash, all lower-cased, is a fixed point of `normalize_url`. -/
theorem normalize_fix_full (sch u : List Char)
    (hhead : ∃ a t, sch = a :: t ∧ a.isAlpha = true)
    (hfacts : ∀ c ∈ sch, isSchemeChar c = true ∧ c ≠ ':')
    (hlow : sch.map lowCh = sch)
    (hulow : u.map lowCh = u)
    (hu_ne : u ≠ [])
    (hu_hash : ∀ c ∈ u, c ≠ '#')
    (hu_quest : ∀ c ∈ u, c ≠ '?')
    (hu_semi : ∀ c ∈ u, c ≠ ';')
    (hu_clean : ∀ c ∈ u, (!(c == '\t' || c == '\r' || c == '\n')) = true)
    (hu_last : ∃ d, u.getLast? = some d ∧ (d == '/') = false) :
    normalize_url ⟨sch ++ [':'] ++ '/' :: '/' :: u⟩ = ⟨sch ++ [':'] ++ '/' :: '/' :: u⟩ := by
  have hschhash : ∀ c ∈ sch, c ≠ '#' := by
    intro c hc he
    have h1 := (hfacts c hc).1
    rw [he] at h1
    exact absurd h1 (by decide)
  have hhashL : ∀ c ∈ sch ++ [':'] ++ '/' :: '/' :: u, (c != '#') = true := by
    intro c hc
    simp only [bne_iff_ne]
    rcases List.mem_append.mp hc with hc | hc
    · rcases List.mem_append.mp hc with hc | hc
      · exact hschhash c hc
      · have : c = ':' := by simpa using hc
        rw [this]
        decide
    · rcases List.mem_cons.mp hc with rfl | hc
      · decide
      · rcases List.mem_cons.mp hc with rfl | hc
        · decide
        · exact hu_hash c hc
  have htake : (sch ++ [':'] ++ '/' :: '/' :: u).takeWhile (fun c => c != '#')
      = sch ++ [':'] ++ '/' :: '/' :: u := List.takeWhile_eq_self_iff.mpr hhashL
  have hsplitS : splitScheme (sch ++ [':'] ++ '/' :: '/' :: u) = (sch, '/' :: '/' :: u) := by
    have h2 := splitScheme_complete sch ('/' :: '/' :: u) hhead hfacts
    rw [hlow] at h2
    rw [List.append_assoc]
    exact h2
  have hpath2 : (u.dropWhile (fun c => !netlocDelim c)).takeWhile (fun c => c != '?')
      = u.dropWhile (fun c => !netlocDelim c) := by
    apply List.takeWhile_eq_self_iff.mpr
    intro c hc
    simp only [bne_iff_ne]
    exact hu_quest c ((List.dropWhile_sublist _).subset hc)
  have hsanL : sanitizeUrl (sch ++ [':'] ++ '/' :: '/' :: u)
      = sch ++ [':'] ++ '/' :: '/' :: u := by
    apply sanitizeUrl_eq_self
    · intro a hh
      obtain ⟨a0, t, hst, ha0⟩ := hhead
      rw [hst] at hh
      have ha : a = a0 := by
        simp only [List.cons_append, List.head?_cons, Option.some.injEq] at hh
        exact hh.symm
      rw [ha]
      exact alpha_gt32 a0 ha0
    · intro c hc
      rcases List.mem_append.mp hc with hc | hc
      · rcases List.mem_append.mp hc with hc | hc
        · exact schemeChar_clean c (hfacts c hc).1
        · have hcc : c = ':' := by simpa using hc
          rw [hcc]
          decide
      · rcases List.mem_cons.mp hc with rfl | hc
        · decide
        · rcases List.mem_cons.mp hc with rfl | hc
          · decide
          · exact hu_clean c hc
  have hcore : urlsplitCore (sch ++ [':'] ++ '/' :: '/' :: u)
      = ⟨sch, u.takeWhile (fun c => !netlocDelim c), u.dropWhile (fun c => !netlocDelim c)⟩ := by
    unfold urlsplitCore
    rw [hsanL, htake, hsplitS]
    show UrlParts.mk sch (splitNetloc ('/' :: '/' :: u)).1
        ((splitNetloc ('/' :: '/' :: u)).2.takeWhile (fun c => c != '?')) = _
    rw [splitNetloc_dblslash]
    show UrlParts.mk sch (u.takeWhile (fun c => !netlocDelim c))
        ((u.dropWhile (fun c => !netlocDelim c)).takeWhile (fun c => c != '?')) = _
    rw [hpath2]
  have hsemi_path : ';' ∉ (urlsplitCore (sch ++ [':'] ++ '/' :: '/' :: u)).path := by
    rw [hcore]
    show ';' ∉ u.dropWhile (fun c => !netlocDelim c)
    intro hmem
    exact hu_semi ';' ((List.dropWhile_sublist _).subset hmem) rfl
  have hcoreP : urlparseCore (sch ++ [':'] ++ '/' :: '/' :: u)
      = ⟨sch, u.takeWhile (fun c => !netlocDelim c), u.dropWhile (fun c => !netlocDelim c)⟩ := by
    rw [urlparseCore_no_semi _ hsemi_path, hcore]
  obtain ⟨d, hd1, hd2⟩ := hu_last
  have hstrip_u : rstripSlash u = u := rstrip_self_of_last u d hd1 hd2
  have hmap_colon : List.map lowCh ([':'] : List Char) = [':'] := by decide
  have hmap_body : List.map lowCh ('/' :: '/' :: u) = '/' :: '/' :: u := by
    show lowCh '/' :: lowCh '/' :: u.map lowCh = _
    rw [hulow, show lowCh '/' = '/' from by decide]
  unfold normalize_url
  rw [if_neg (by simp [List.isEmpty_iff])]
  rw [hcoreP]
  by_cases hbb : bracketBad (u.takeWhile (fun c => !netlocDelim c)) = true
  · rw [if_pos hbb]
    congr 1
    rw [List.map_append, List.map_append, hlow, hmap_colon, hmap_body]
  · rw [if_neg hbb]
    congr 1
    have hassoc2 : sch ++ ([':', '/', '/'] : List Char)
          ++ u.takeWhile (fun c => !netlocDelim c) ++ u.dropWhile (fun c => !netlocDelim c)
        = sch ++ [':'] ++ ('/' :: '/' :: u) := by
      conv_rhs => rw [← List.takeWhile_append_dropWhile (fun c => !netlocDelim c) u]
      simp [List.append_assoc]
    rw [hassoc2, strip_assemble]
    have hstrip2 : rstripSlash ('/' :: '/' :: u) = '/' :: '/' :: u := by
      rw [show ('/' :: '/' :: u) = ['/', '/'] ++ u from rfl, rstripSlash_append, hstrip_u]
      rw [if_neg hu_ne]
    rw [hstrip2]
    rw [List.map_append, List.map_append, hlow, hmap_colon, hmap_body]

/-- Core of C7: on a nonempty, semicolon-free, bracket-free URL whose parse
recognises a scheme, `normalize_url` is idempotent. -/
theorem normalize_url_idem_aux (cs : List Char) (hcs : cs ≠ [])
    (sch r1 nl r2 : List Char)
    (hsp : splitScheme ((sanitizeUrl cs).takeWhile (fun c => c != '#')) = (sch, r1))
    (hsn : splitNetloc r1 = (nl, r2))
    (h2 : sch ≠ [])
    (hsemi : ∀ c ∈ cs, c ≠ ';')
    (hbrk : ∀ c ∈ cs, c ≠ '[' ∧ c ≠ ']') :
    normalize_url (normalize_url ⟨cs⟩) = normalize_url ⟨cs⟩ := by
  obtain ⟨raw, hdec, hschraw, hheadraw, hallraw⟩ :=
    splitScheme_sound ((sanitizeUrl cs).takeWhile (fun c => c != '#')) sch r1 hsp h2
  have hsch_low : sch.map lowCh = sch := by
    rw [hschraw]
    exact map_lowCh_idem raw
  have hsch_head : ∃ a t, sch = a :: t ∧ a.isAlpha = true := by
    obtain ⟨a, t, hrt, hal⟩ := hheadraw
    refine ⟨lowCh a, t.map lowCh, ?_, ?_⟩
    · rw [hschraw, hrt]
      rfl
    · rw [lowCh_isAlpha]
      exact hal
  have hsch_facts : ∀ c ∈ sch, isSchemeChar c = true ∧ c ≠ ':' := by
    intro c hc
    rw [hschraw] at hc
    obtain ⟨c0, hc0, rfl⟩ := List.mem_map.mp hc
    obtain ⟨hs0, hn0⟩ := hallraw c0 hc0
    exact ⟨by rw [lowCh_isSchemeChar]; exact hs0,
      lowCh_ne_punct c0 ':' (by decide) (by decide) hn0⟩
  have hr1_in : ∀ c ∈ r1, c ∈ (sanitizeUrl cs).takeWhile (fun c => c != '#') := by
    intro c hc
    rw [hdec]
    exact List.mem_append_right _ (List.mem_cons_of_mem _ hc)
  have hmemA : ∀ c ∈ (sanitizeUrl cs).takeWhile (fun c => c != '#'), c ∈ cs := by
    intro c hc
    exact sanitizeUrl_subset cs c ((List.takeWhile_sublist _).subset hc)
  have hcleanA : ∀ c ∈ (sanitizeUrl cs).takeWhile (fun c => c != '#'),
      (!(c == '\t' || c == '\r' || c == '\n')) = true := by
    intro c hc
    exact sanitizeUrl_clean cs c ((List.takeWhile_sublist _).subset hc)
  have hhash_r1 : ∀ c ∈ r1, c ≠ '#' := by
    intro c hc
    have := mem_takeWhile_pred (fun c => c != '#') (sanitizeUrl cs) c (hr1_in c hc)
    simpa using this
  have hnfacts := splitNetloc_facts r1
  rw [hsn] at hnfacts
  have hnl_nodelim : ∀ c ∈ nl, (!netlocDelim c) = true := hnfacts.1
  have hr2_in : ∀ c ∈ r2, c ∈ r1 := hnfacts.2
  have hnl_in : ∀ c ∈ nl, c ∈ r1 := by
    intro c hc
    apply splitNetloc_fst_subset r1
    rw [hsn]
    exact hc
  have hnl_cs : ∀ c ∈ nl, c ∈ cs := fun c hc => hmemA c (hr1_in c (hnl_in c hc))
  have hr2_cs : ∀ c ∈ r2, c ∈ cs := fun c hc => hmemA c (hr1_in c (hr2_in c hc))
  have hnl_not : ∀ c ∈ nl, c ≠ '#' ∧ c ≠ '?' := by
    intro c hc
    have hnd := hnl_nodelim c hc
    constructor <;> intro he <;> rw [he] at hnd <;> exact absurd hnd (by decide)
  have hpath_hash : ∀ c ∈ r2.takeWhile (fun c => c != '?'), c ≠ '#' := by
    intro c hc
    exact hhash_r1 c (hr2_in c ((List.takeWhile_sublist _).subset hc))
  have hpath_quest : ∀ c ∈ r2.takeWhile (fun c => c != '?'), c ≠ '?' := by
    intro c hc
    have := mem_takeWhile_pred (fun c => c != '?') r2 c hc
    simpa using this
  have hcore : urlsplitCore cs = ⟨sch, nl, r2.takeWhile (fun c => c != '?')⟩ := by
    unfold urlsplitCore
    rw [hsp]
    show UrlParts.mk sch (splitNetloc r1).1
        ((splitNetloc r1).2.takeWhile (fun c => c != '?')) = _
    rw [hsn]
  have hsemi_path : ';' ∉ (urlsplitCore cs).path := by
    rw [hcore]
    show ';' ∉ r2.takeWhile (fun c => c != '?')
    intro hmem
    exact hsemi ';' (hr2_cs ';' ((List.takeWhile_sublist _).subset hmem)) rfl
  have hcoreP : urlparseCore cs = ⟨sch, nl, r2.takeWhile (fun c => c != '?')⟩ := by
    rw [urlparseCore_no_semi cs hsemi_path, hcore]
  have hbb : ¬ bracketBad nl = true := by
    unfold bracketBad
    have hL : nl.any (fun c => c == '[') = false := by
      apply Bool.eq_false_iff.mpr
      intro hany
      obtain ⟨x, hx, hpx⟩ := List.any_eq_true.mp hany
      exact (hbrk x (hnl_cs x hx)).1 (eq_of_beq hpx)
    have hR : nl.any (fun c => c == ']') = false := by
      apply Bool.eq_false_iff.mpr
      intro hany
      obtain ⟨x, hx, hpx⟩ := List.any_eq_true.mp hany
      exact (hbrk x (hnl_cs x hx)).2 (eq_of_beq hpx)
    rw [hL, hR]
    decide
  · have hN : normalize_url ⟨cs⟩ = ⟨(rstripSlash (sch ++ [':', '/', '/'] ++ nl
        ++ r2.takeWhile (fun c => c != '?'))).map lowCh⟩ := by
      unfold normalize_url
      rw [if_neg (by simp [List.isEmpty_iff, hcs])]
      rw [hcoreP]
      rw [if_neg (show ¬ bracketBad (UrlParts.mk sch nl
        (r2.takeWhile (fun c => c != '?'))).netloc = true from hbb)]
    have hassoc : sch ++ ([':', '/', '/'] : List Char) ++ nl
          ++ r2.takeWhile (fun c => c != '?')
        = sch ++ [':'] ++ ('/' :: '/' :: (nl ++ r2.takeWhile (fun c => c != '?'))) := by
      simp [List.append_assoc]
    rw [hassoc, strip_assemble] at hN
    rw [List.map_append, List.map_append, hsch_low,
      show List.map lowCh ([':'] : List Char) = [':'] from by decide] at hN
    by_cases hu0 : rstripSlash (nl ++ r2.takeWhile (fun c => c != '?')) = []
    · have hw : rstripSlash ('/' :: '/' :: (nl ++ r2.takeWhile (fun c => c != '?'))) = [] := by
        rw [show ('/' :: '/' :: (nl ++ r2.takeWhile (fun c => c != '?')))
              = ['/', '/'] ++ (nl ++ r2.takeWhile (fun c => c != '?')) from rfl,
            rstripSlash_append, if_pos hu0]
        decide
      rw [hw] at hN
      rw [List.map_nil, List.append_nil] at hN
      rw [hN]
      exact normalize_fix_colon sch hsch_head hsch_facts hsch_low
    · have hw : rstripSlash ('/' :: '/' :: (nl ++ r2.takeWhile (fun c => c != '?')))
          = '/' :: '/' :: rstripSlash (nl ++ r2.takeWhile (fun c => c != '?')) := by
        rw [show ('/' :: '/' :: (nl ++ r2.takeWhile (fun c => c != '?')))
              = ['/', '/'] ++ (nl ++ r2.takeWhile (fun c => c != '?')) from rfl,
            rstripSlash_append, if_neg hu0]
        rfl
      rw [hw] at hN
      rw [show ('/' :: '/' :: rstripSlash (nl ++ r2.takeWhile (fun c => c != '?'))).map lowCh
            = '/' :: '/' :: (rstripSlash (nl ++ r2.takeWhile (fun c => c != '?'))).map lowCh from by
          show lowCh '/' :: lowCh '/' :: _ = _
          rw [show lowCh '/' = '/' from by decide]] at hN
      rw [hN]
      apply normalize_fix_full sch
        ((rstripSlash (nl ++ r2.takeWhile (fun c => c != '?'))).map lowCh)
        hsch_head hsch_facts hsch_low (map_lowCh_idem _) (by simp [hu0])
      · intro c hc
        obtain ⟨c0, hc0, rfl⟩ := List.mem_map.mp hc
        have hc1 : c0 ∈ nl ++ r2.takeWhile (fun c => c != '?') := rstripSlash_subset _ hc0
        have hc2 : c0 ≠ '#' := by
          rcases List.mem_append.mp hc1 with hx | hx
          · exact (hnl_not c0 hx).1
          · exact hpath_hash c0 hx
        exact lowCh_ne_punct c0 '#' (by decide) (by decide) hc2
      · intro c hc
        obtain ⟨c0, hc0, rfl⟩ := List.mem_map.mp hc
        have hc1 : c0 ∈ nl ++ r2.takeWhile (fun c => c != '?') := rstripSlash_subset _ hc0
        have hc2 : c0 ≠ '?' := by
          rcases List.mem_append.mp hc1 with hx | hx
          · exact (hnl_not c0 hx).2
          · exact hpath_quest c0 hx
        exact lowCh_ne_punct c0 '?' (by decide) (by decide) hc2
      · intro c hc
        obtain ⟨c0, hc0, rfl⟩ := List.mem_map.mp hc
        have hc1 : c0 ∈ nl ++ r2.takeWhile (fun c => c != '?') := rstripSlash_subset _ hc0
        have hc2 : c0 ≠ ';' := by
          intro he
          rcases List.mem_append.mp hc1 with hx | hx
          · exact hsemi c0 (hnl_cs c0 hx) he
          · exact hsemi c0 (hr2_cs c0 ((List.takeWhile_sublist _).subset hx)) he
        exact lowCh_ne_punct c0 ';' (by decide) (by decide) hc2
      · intro c hc
        obtain ⟨c0, hc0, rfl⟩ := List.mem_map.mp hc
        have hc1 : c0 ∈ nl ++ r2.takeWhile (fun c => c != '?') := rstripSlash_subset _ hc0
        have hc2 : (!(c0 == '\t' || c0 == '\r' || c0 == '\n')) = true := by
          rcases List.mem_append.mp hc1 with hx | hx
          · exact hcleanA c0 (hr1_in c0 (hnl_in c0 hx))
          · exact hcleanA c0 (hr1_in c0 (hr2_in c0 ((List.takeWhile_sublist _).subset hx)))
        have hc3 : c0 ≠ '\t' ∧ c0 ≠ '\r' ∧ c0 ≠ '\n' := by
          refine ⟨?_, ?_, ?_⟩ <;> intro he <;> rw [he] at hc2 <;> exact absurd hc2 (by decide)
        exact clean_of_ne (lowCh c0)
          (lowCh_ne_punct c0 '\t' (by decide) (by decide) hc3.1)
          (lowCh_ne_punct c0 '\r' (by decide) (by decide) hc3.2.1)
          (lowCh_ne_punct c0 '\n' (by decide) (by decide) hc3.2.2)
      · obtain ⟨d, hd⟩ : ∃ d,
            (rstripSlash (nl ++ r2.takeWhile (fun c => c != '?'))).getLast? = some d := by
          cases hh : (rstripSlash (nl ++ r2.takeWhile (fun c => c != '?'))).getLast? with
          | none =>
            rw [List.getLast?_eq_head?_reverse, List.head?_eq_none_iff,
              List.reverse_eq_nil_iff] at hh
            exact absurd hh hu0
          | some d => exact ⟨d, rfl⟩
        refine ⟨lowCh d, ?_, ?_⟩
        · rw [getLast?_map_lowCh, hd]
          rfl
        · rw [lowCh_beq_slash]
          exact rstripSlash_last_ne _ d hd

/-- The `;params` splitting of `urlparse` is observable through
`normalize_url`: on the first pass the trailing slash makes the last path
segment empty, so the `;` survives into the rebuilt URL, and the second
pass then splits it off — the behaviour that defeats unrestricted
idempotence even for scheme-ful `http`-family URLs. -/
theorem normalize_url_params_strip :
    normalize_url "http://h/a;b/" = "http://h/a;b"
    ∧ normalize_url "http://h/a;b" = "http://h/a" := by
  refine ⟨by decide, by decide⟩

/-- C7 (amended): `normalize_url` is idempotent on every URL from which the
parser extracts a nonempty scheme, provided the URL contains no `;` (for
schemes in `uses_params` a `;` in the path triggers the params split, which
a pass can expose to the next one, e.g. `http://h/a;b/`) and no square
bracket (CPython 3.11 validates bracketed hosts, which is not modelled);
it is also trivially idempotent on the empty string.  For scheme-less URLs
each application prepends another `://`, so the unrestricted claim fails;
see the counterexample. -/
theorem normalize_url_idem (url : String)
    (h : (urlparseCore url.data).scheme ≠ [])
    (hsemi : ∀ c ∈ url.data, c ≠ ';')
    (hbrk : ∀ c ∈ url.data, c ≠ '[' ∧ c ≠ ']') :
    normalize_url (normalize_url url) = normalize_url url := by
  have hcs : url.data ≠ [] := by
    intro he
    apply h
    rw [he]
    decide
  have h2 : (splitScheme ((sanitizeUrl url.data).takeWhile (fun c => c != '#'))).1 ≠ [] := by
    rw [urlparseCore_scheme] at h
    exact h
  exact normalize_url_idem_aux url.data hcs
    (splitScheme ((sanitizeUrl url.data).takeWhile (fun c => c != '#'))).1
    (splitScheme ((sanitizeUrl url.data).takeWhile (fun c => c != '#'))).2
    (splitNetloc (splitScheme ((sanitizeUrl url.data).takeWhile (fun c => c != '#'))).2).1
    (splitNetloc (splitScheme ((sanitizeUrl url.data).takeWhile (fun c => c != '#'))).2).2
    rfl rfl h2 hsemi hbrk

/-- C7 witness: the amended theorem at a concrete URL with scheme, mixed
case, query, fragment and trailing slash (no semicolons, no brackets). -/
theorem normalize_url_idem_witness :
    normalize_url (normalize_url "https://Example.com/Path/?q=1#frag")
      = normalize_url "https://Example.com/Path/?q=1#frag" :=
  normalize_url_idem "https://Example.com/Path/?q=1#frag" (by decide) (by decide)
    (by decide)

/-- C7 counterexample: on a scheme-less input normalization is not
idempotent — each pass prepends another `://`. -/
theorem normalize_url_idem_cex :
    normalize_url "foo" = "://foo"
    ∧ normalize_url (normalize_url "foo") = "://://foo"
    ∧ ("://://foo" : String) ≠ "://foo" := by
  refine ⟨by decide, by decide, by decide⟩
